import Mathlib

/-
  Verification development for zjm1060/ATCmdParser.

  Shallow embedding of src/ATCmdParser.c (with ATCmdParser.h).  The external
  collaborators of the engine are modelled as inputs:
    * the serial transport `get` primitive is a finite list of `Int` results
      (a negative value models a character timeout; an exhausted list also
      models "no further byte arrives", i.e. the next read times out);
    * libc `sscanf` used for the non-capturing verification pass is an oracle
      `ScanOracle` mapping (candidate bytes, template bytes) to the count the
      `%n` specifier would deposit (`none` when the match fails before `%n`,
      leaving `count` at its initial `-1`);
    * OOB handlers are external callbacks, identified by an opaque number;
      an invocation is recorded as an event.
  Machine iteration is modelled with explicit fuel; running out of fuel is a
  distinguished result and never identified with any return of the C code.
-/

namespace ATCP

/-- AT_BUFFER_SIZE from ATCmdParser.h. -/
def AT_BUFFER_SIZE : Nat := 2048

/-- The NUL character written by the code as a string terminator. -/
def nulChar : Char := Char.ofNat 0

/-- `(char)c` applied to the `int` returned by `ops->get`. -/
def toChar (c : Int) : Char := Char.ofNat (c.toNat % 256)

/-- struct oob from ATCmdParser.h: recorded byte length, prefix bytes and the
handler callback (modelled by an opaque identifier). -/
structure OobEntry where
  len : Nat
  pfx : List Char
  cb : Nat
deriving Repr, DecidableEq

/-- ATCmdParser_add_oob: allocates an entry with `len = strlen(prefix)` and
pushes it at the head of the registry list (`oob->next = at->_oobs`). -/
def ATCmdParser_add_oob (oobs : List OobEntry) (pfx : List Char) (cb : Nat) :
    List OobEntry :=
  ⟨pfx.length, pfx, cb⟩ :: oobs

/-- The OOB scan shared by ATCmdParser_vrecv (lines 130-146) and
ATCmdParser_process_oob (lines 297-307): walk the registry in order and return
the first entry whose recorded length equals the accumulated length `j` and
whose first `len` bytes compare equal (`memcmp`) to the accumulated bytes. -/
def findOob (oobs : List OobEntry) (cand : List Char) : Option OobEntry :=
  match oobs with
  | [] => none
  | e :: rest =>
    if cand.length = e.len ∧ cand.take e.len = e.pfx.take e.len then some e
    else findOob rest cand

/-- Events observable by the environment during a run: handler invocations,
capturing extraction (`vsscanf` applied to the post-removal byte region and
the line's source text), the unprocessed-data callback, and each single-byte
store into the scratch buffer performed while accumulating a candidate (the
index stored to). -/
inductive Event where
  | oobCall (cb : Nat) (pfx : List Char)
  | extract (region : List Char) (line : List Char)
  | unprocessed (data : List Char)
  | bufWrite (idx : Nat)
deriving Repr, DecidableEq

/-- Result type of the libc `sscanf` verification pass: given the candidate
string and the rewritten template (which ends in "%n"), the count of consumed
characters that `%n` stores, or `none` when matching fails before reaching
`%n` (so the `count` variable keeps its initial `-1`). -/
def ScanOracle : Type := List Char → List Char → Option Nat

/-- The template-staging loop of ATCmdParser_vrecv (lines 76-89), written
structurally on the remaining pattern text.  The two `Option Char` arguments
carry `response[i-2]` and `response[i-1]` (the look-behind used by the
`%[^\n]` guard); `none` means the position is before the start of the string.
The C loop reads `response[i+1]` for the `%` look-ahead; at the end of the
string that reads the NUL terminator, which is neither `%` nor `*`, hence the
`rest.head?` comparisons.  Returns (rewritten bytes, consumed count `i`,
`whole_line_wanted`). -/
def rewriteGo : List Char → Option Char → Option Char → List Char × Nat × Bool
  | [], _, _ => ([], 0, false)
  | c :: rest, p2, p1 =>
    if c = '%' ∧ rest.head? ≠ some '%' ∧ rest.head? ≠ some '*' then
      let r := rewriteGo rest p1 (some '%')
      ('%' :: '*' :: r.1, r.2.1 + 1, r.2.2)
    else if c = '\n' ∧ ¬(p2 = some '[' ∧ p1 = some '^') then
      ([c], 1, true)
    else
      let r := rewriteGo rest p1 (some c)
      (c :: r.1, r.2.1 + 1, r.2.2)

/-- Staging one pattern line (ATCmdParser_vrecv lines 72-96): rewrite the line
and append the synthetic "%n".  Returns (template, consumed source chars `i`,
`whole_line_wanted`).  The buffer offset at which the candidate region starts
is the template length plus one (the NUL written at line 96). -/
def prepLine (resp : List Char) : List Char × Nat × Bool :=
  let r := rewriteGo resp none none
  (r.1 ++ ['%', 'n'], r.2.1, r.2.2)

/-- Modelled from the spec sentence of claim C2: a verification template
identical to the line except that each literal '%' not followed by '%' or '*'
is replaced by "%*".  Used only to compare against the code's `rewriteGo`. -/
def specRewrite : List Char → List Char
  | [] => []
  | c :: rest =>
    if c = '%' ∧ rest.head? ≠ some '%' ∧ rest.head? ≠ some '*' then
      '%' :: '*' :: specRewrite rest
    else c :: specRewrite rest

/-- Modelled from the spec sentence of claim C2: the line contains a newline
that is not immediately preceded by the two characters "[^". -/
def lineHasBareNL (line : List Char) : Prop :=
  ∃ p, line.get? p = some '\n' ∧
    ¬(2 ≤ p ∧ line.get? (p - 2) = some '[' ∧ line.get? (p - 1) = some '^')

/-- Look-behind helper relating `rewriteGo`'s context arguments to absolute
positions: the character `k` places before position `p` of `l`, where `p1` is
the character just before `l` and `p2` the one before that. -/
def ctxAt (p2 p1 : Option Char) (l : List Char) (p k : Nat) : Option Char :=
  if k ≤ p then l.get? (p - k)
  else if k = p + 1 then p1
  else if k = p + 2 then p2
  else none

/-- Mutable state of the inner receive loop of ATCmdParser_vrecv: the pending
transport results, the candidate region contents (`j` characters starting at
`_buffer + offset`), the `dummy_pos` entries, and the persistent `_in_prev`. -/
structure InnerSt where
  stream : List Int
  cand : List Char
  dpos : List Nat
  inPrev : Char
deriving Repr, DecidableEq

/-- Outcome of one iteration of the inner `while (true)` loop of
ATCmdParser_vrecv (lines 109-188). -/
inductive StepRes where
  | timeout (stream : List Int)
  | oobHit (e : OobEntry) (st : InnerSt)
  | matched (cleaned : List Char) (st : InnerSt)
  | next (st : InnerSt)
deriving Repr, DecidableEq

/-- An overlapping forward memcpy shifting a region one byte to the left:
copy `n` bytes from index `i + 1` down to index `i` (the source byte is read
before it is overwritten, so the effect is a snapshot copy); bytes at and
beyond index `i + n` are untouched.  Used by the dummy-removal memcpy of
ATCmdParser_vrecv (line 165) and by ATCmdParser_analyse_args (line 337). -/
def memShift (arr : List Char) (i n : Nat) : List Char :=
  arr.take i ++ (arr.drop (i + 1)).take n ++ arr.drop (i + n)

/-- The dummy-character removal loop (ATCmdParser_vrecv lines 162-167): at
step `k` the recorded position is adjusted by the removals already done
(`dummy_pos[k] -= k`) and the memcpy shifts `j - dummy_pos[k] - 1` bytes left
by one (with `j` decremented once per removal, the count is always
`length - p - 1` for the originally recorded `p`).  The memcpy never moves
the NUL terminator at the end of the region, so the region keeps its full
length: each removal leaves a stale duplicate of the final byte in place,
and the result here is exactly the byte region that `vsscanf` then reads. -/
def removeDummies : List Char → List Nat → Nat → List Char
  | cand, [], _ => cand
  | cand, p :: ps, k => removeDummies (memShift cand (p - k) (cand.length - p - 1)) ps (k + 1)

/-- One iteration of the inner receive loop of ATCmdParser_vrecv
(lines 109-188): read a character (negative result or exhausted input is a
timeout, line 112-115); inject a dummy 'x' when a newline directly follows a
colon (lines 120-123); append the character (lines 125-128); scan the OOB
registry against the accumulated candidate (lines 130-146); otherwise run the
verification pass unless `whole_line_wanted` suppresses it (lines 148-158)
and accept exactly when the consumed count equals `j` (line 161); on a
newline or when the capacity bound `j + 1 >= AT_BUFFER_SIZE - offset` is
reached without a match, reset the candidate and filler bookkeeping
(lines 181-187). -/
def innerStep (oobs : List OobEntry) (oracle : ScanOracle) (tmpl : List Char)
    (wlw : Bool) (offset : Nat) (st : InnerSt) : StepRes :=
  match st.stream with
  | [] => .timeout []
  | c :: rest =>
    if c < 0 then .timeout (c :: rest)
    else
      let ch := toChar c
      let cand1 := if ch = '\n' ∧ st.inPrev = ':' then st.cand ++ ['x'] else st.cand
      let dpos1 := if ch = '\n' ∧ st.inPrev = ':' then st.dpos ++ [st.cand.length] else st.dpos
      let cand2 := cand1 ++ [ch]
      match findOob oobs cand2 with
      | some e => .oobHit e ⟨rest, cand2, dpos1, ch⟩
      | none =>
        let count : Int :=
          if wlw = true ∧ ch ≠ '\n' then -1
          else
            match oracle cand2 tmpl with
            | some n => (n : Int)
            | none => -1
        if count = (cand2.length : Int) then
          .matched (removeDummies cand2 dpos1 0) ⟨rest, cand2, dpos1, ch⟩
        else if ch = '\n' ∨ AT_BUFFER_SIZE ≤ offset + cand2.length + 1 then
          .next ⟨rest, [], [], ch⟩
        else .next ⟨rest, cand2, dpos1, ch⟩

/-- The scratch-buffer indices stored to during one iteration of the inner
receive loop (ATCmdParser_vrecv lines 120-128): on a timeout none; when the
dummy 'x' is injected, the dummy at `offset + j`, the received byte at
`offset + j + 1` and the NUL sentinel at `offset + j + 2`; otherwise the
received byte at `offset + j` and the sentinel at `offset + j + 1`. -/
def stepWrites (offset : Nat) (st : InnerSt) : List Nat :=
  match st.stream with
  | [] => []
  | c :: _ =>
    if c < 0 then []
    else if toChar c = '\n' ∧ st.inPrev = ':' then
      [offset + st.cand.length, offset + st.cand.length + 1, offset + st.cand.length + 2]
    else [offset + st.cand.length, offset + st.cand.length + 1]

/-- Result of ATCmdParser_vrecv: `ok` is `return true` (line 191); the two
`return false` sites are the character timeout (line 114, `timeoutFail`) and
the post-handler abort check (line 140, `abortedFail`); both carry the
pending transport results at the point of return and the event trace.
`outOfFuel` is a model artefact, distinct from every return of the code. -/
inductive RResult where
  | ok (stream : List Int) (tr : List Event)
  | timeoutFail (stream : List Int) (tr : List Event)
  | abortedFail (stream : List Int) (tr : List Event)
  | outOfFuel
deriving Repr, DecidableEq

/-- The event trace carried by a result. -/
def RResult.trace : RResult → List Event
  | .ok _ tr => tr
  | .timeoutFail _ tr => tr
  | .abortedFail _ tr => tr
  | .outOfFuel => []

/-- Whether a result is the aborted failure (the `return false` at line 140
of ATCmdParser_vrecv). -/
def RResult.isAborted : RResult → Bool
  | .abortedFail _ _ => true
  | _ => false

/-- Control position inside ATCmdParser_vrecv: `lines` is the head of the
outer `while (response[0])` loop (line 67), `inLine` the inner character loop
with a staged template.  `ab` is the local `_aborted` flag (set to `false` at
the `restart` label, line 65). -/
inductive Phase where
  | lines (ab : Bool) (resp : List Char) (stream : List Int) (inPrev : Char)
  | inLine (ab : Bool) (resp tmpl : List Char) (iCon : Nat) (wlw : Bool)
      (offset : Nat) (st : InnerSt)

/-- The `_aborted` flag of a control position. -/
def Phase.abFlag : Phase → Bool
  | .lines ab _ _ _ => ab
  | .inLine ab _ _ _ _ _ _ => ab

/-- The body of ATCmdParser_vrecv after the `restart` label, driven by fuel.
In the `lines` phase an empty remaining pattern returns true (line 191);
otherwise the line is staged (lines 72-96; candidate region offset is the
template length plus the NUL) and the inner loop is entered with `j = 0`,
`dummy = 0`.  In the `inLine` phase one character iteration runs: a timeout
returns false; an OOB hit appends the handler-invocation event, then checks
`_aborted` (line 138) and otherwise performs `goto restart` (line 144) —
since `response` is the (advanced) parameter and the jump does not restore
it, the outer loop resumes at the *current* remaining pattern text, with
`_aborted` cleared and the current line staged afresh; a match appends the
extraction event (lines 162-175) and advances past the line's source text
(`response += i`); otherwise the loop continues.  Buffer stores of the
iteration are appended to the trace as `bufWrite` events. -/
def runV (oobs : List OobEntry) (oracle : ScanOracle) :
    Nat → Phase → List Event → RResult
  | 0, _, _ => .outOfFuel
  | fuel + 1, .lines ab resp stream inPrev, tr =>
    match resp with
    | [] => .ok stream tr
    | _ :: _ =>
      runV oobs oracle fuel
        (.inLine ab resp (prepLine resp).1 (prepLine resp).2.1 (prepLine resp).2.2
          ((prepLine resp).1.length + 1) ⟨stream, [], [], inPrev⟩) tr
  | fuel + 1, .inLine ab resp tmpl iCon wlw offset st, tr =>
    match innerStep oobs oracle tmpl wlw offset st with
    | .timeout s =>
      .timeoutFail s (tr ++ (stepWrites offset st).map Event.bufWrite)
    | .oobHit e st' =>
      if ab then
        .abortedFail st'.stream
          ((tr ++ (stepWrites offset st).map Event.bufWrite) ++ [Event.oobCall e.cb e.pfx])
      else
        runV oobs oracle fuel (.lines false resp st'.stream st'.inPrev)
          ((tr ++ (stepWrites offset st).map Event.bufWrite) ++ [Event.oobCall e.cb e.pfx])
    | .matched region st' =>
      runV oobs oracle fuel (.lines ab (resp.drop iCon) st'.stream st'.inPrev)
        ((tr ++ (stepWrites offset st).map Event.bufWrite) ++ [Event.extract region (resp.take iCon)])
    | .next st' =>
      runV oobs oracle fuel (.inLine ab resp tmpl iCon wlw offset st')
        (tr ++ (stepWrites offset st).map Event.bufWrite)

/-- ATCmdParser_vrecv (lines 60-192): `_in_prev` starts at 0 and `_aborted`
is set to false at the `restart` label before the outer loop. -/
def ATCmdParser_vrecv (oobs : List OobEntry) (oracle : ScanOracle)
    (response : List Char) (stream : List Int) (fuel : Nat) : RResult :=
  runV oobs oracle fuel (.lines false response stream nulChar) []

/-- The read loop of ATCmdParser_read (lines 252-263): `size` reads of one
character each; a negative `get` result (or exhausted input) makes the whole
call fail, otherwise the bytes and the remaining input are returned. -/
def readLoop : List Int → Nat → Option (List Char × List Int)
  | s, 0 => some ([], s)
  | [], _ + 1 => none
  | c :: r, n + 1 =>
    if c < 0 then none
    else
      match readLoop r n with
      | none => none
      | some (d, rest) => some (toChar c :: d, rest)

/-- ATCmdParser_read's return value: `-1` on the first character timeout,
otherwise the full `size`. -/
def ATCmdParser_read (stream : List Int) (size : Nat) : Int :=
  match readLoop stream size with
  | none => -1
  | some _ => (size : Int)

/-- State of the ATCmdParser_process_oob accumulation loop: pending transport
results, the scratch buffer contents, the fill index `i`, and the events so
far. -/
structure OobPollSt where
  stream : List Int
  buf : List Char
  i : Nat
  tr : List Event

/-- Outcome of one iteration of the `while (true)` loop of
ATCmdParser_process_oob (lines 288-320). -/
inductive PollRes where
  | timeout (stream : List Int)
  | handled (e : OobEntry) (st : OobPollSt)
  | cont (st : OobPollSt)

/-- One iteration of ATCmdParser_process_oob's loop: read a character
(negative result returns false, lines 290-293); store it and the NUL sentinel
(lines 294-295); scan the OOB registry against the accumulated bytes
(lines 298-307), invoking the handler and returning true on a hit; on
capacity exhaustion or when the accumulated bytes end with the input
delimiter (line 311), flush to the unprocessed-data callback if set and reset
`i` to 0.  The C suffix comparison `strcmp(&_buffer[i - _input_delim_size],
_input_delimiter)` reads before the buffer when `i` is smaller than the
delimiter length (undefined behaviour); the model treats that case as "no
match". -/
def pollStep (oobs : List OobEntry) (delim : List Char) (hasCb : Bool)
    (st : OobPollSt) : PollRes :=
  match st.stream with
  | [] => .timeout []
  | c :: rest =>
    if c < 0 then .timeout (c :: rest)
    else
      let ch := toChar c
      let buf1 := (st.buf.set st.i ch).set (st.i + 1) nulChar
      let i1 := st.i + 1
      let cand := buf1.take i1
      match findOob oobs cand with
      | some e => .handled e ⟨rest, buf1, i1, st.tr ++ [Event.oobCall e.cb e.pfx]⟩
      | none =>
        if AT_BUFFER_SIZE ≤ i1 + 1 ∨
            (delim.length ≤ i1 ∧ cand.drop (i1 - delim.length) = delim) then
          .cont ⟨rest, buf1, 0, st.tr ++ (if hasCb then [Event.unprocessed cand] else [])⟩
        else .cont ⟨rest, buf1, i1, st.tr⟩

/-- The `while (true)` loop of ATCmdParser_process_oob, driven by fuel;
`none` is fuel exhaustion (a model artefact). -/
def pollLoop (oobs : List OobEntry) (delim : List Char) (hasCb : Bool) :
    Nat → OobPollSt → Option (Bool × List Int × List Char × List Event)
  | 0, _ => none
  | fuel + 1, st =>
    match pollStep oobs delim hasCb st with
    | .timeout s => some (false, s, st.buf, st.tr)
    | .handled _e st' => some (true, st'.stream, st'.buf, st'.tr)
    | .cont st' => pollLoop oobs delim hasCb fuel st'

/-- ATCmdParser_process_oob (lines 281-321): when the transport reports no
data available, return false at once (lines 283-285) without reading and
without touching the buffer; otherwise run the accumulation loop starting at
`i = 0`.  Returns (result, remaining input, final buffer contents, events). -/
def ATCmdParser_process_oob (oobs : List OobEntry) (delim : List Char)
    (hasCb : Bool) (readable : Bool) (buf0 : List Char) (stream : List Int)
    (fuel : Nat) : Option (Bool × List Int × List Char × List Event) :=
  if readable then pollLoop oobs delim hasCb fuel ⟨stream, buf0, 0, []⟩
  else some (false, stream, buf0, [])

/-- State of the ATCmdParser_analyse_args loop: the byte array (including the
NUL terminator), the `arg_list` entries as indices into the array, `arg_num`,
and `_in_prev`. -/
structure ArgsSt where
  arr : List Char
  argList : List Nat
  argNum : Nat
  inPrev : Char
deriving Repr, DecidableEq

/-- The `for (int i = 0; i <= len; i++)` loop of ATCmdParser_analyse_args
(lines 331-346), with `rem` counting the remaining iterations.  On a comma:
if `_in_prev` is a backslash, execute `args[i - i] = ','` (the literal source
expression, i.e. index 0) and the shifting memcpy of `len - (i + 1)` bytes;
otherwise terminate the argument, record `&args[i + 1]` and stop early once
`arg_num` exceeds `list_size`.  `_in_prev` is then read back from the
(possibly mutated) array. -/
def analyseLoop (listSize : Nat) (len : Nat) : Nat → Nat → ArgsSt → ArgsSt
  | _, 0, st => st
  | i, rem + 1, st =>
    let c := st.arr.getD i nulChar
    if c = ',' then
      if st.inPrev = '\\' then
        let arr1 := st.arr.set (i - i) ','
        let arr2 := memShift arr1 i (len - (i + 1))
        analyseLoop listSize len (i + 1) rem ⟨arr2, st.argList, st.argNum, arr2.getD i nulChar⟩
      else
        let arr1 := st.arr.set i nulChar
        let st1 : ArgsSt := ⟨arr1, st.argList ++ [i + 1], st.argNum + 1, st.inPrev⟩
        if listSize < st1.argNum then st1
        else analyseLoop listSize len (i + 1) rem ⟨st1.arr, st1.argList, st1.argNum, arr1.getD i nulChar⟩
    else analyseLoop listSize len (i + 1) rem ⟨st.arr, st.argList, st.argNum, c⟩

/-- ATCmdParser_analyse_args (lines 323-348): `args` is the NUL-free input
string (the C buffer is it plus the terminator), `len = strlen(args)`,
`arg_list[0] = args` and `arg_num = 1` initially. -/
def ATCmdParser_analyse_args (args : List Char) (listSize : Nat) : ArgsSt :=
  let len := args.length
  analyseLoop listSize len 0 (len + 1) ⟨args ++ [nulChar], [0], 1, nulChar⟩

/-- The argument strings a caller reads back: each `arg_list` pointer is an
index, and the string extends to the next NUL in the mutated array. -/
def argStrings (st : ArgsSt) : List (List Char) :=
  st.argList.map (fun idx => (st.arr.drop idx).takeWhile (fun ch => ch ≠ nulChar))

/-- Oracle modelling an sscanf whose match fails before `%n` on every input
(e.g. a template whose first literal never matches the candidate). -/
def oracleNone : ScanOracle := fun _ _ => none

/-- Oracle modelling an sscanf that consumes the whole candidate. -/
def oracleLen : ScanOracle := fun cand _ => some cand.length

/-- Oracle modelling an sscanf that consumes only a proper prefix of any
nonempty candidate. -/
def oraclePfx : ScanOracle := fun cand _ => some (cand.length - 1)

/-- Oracle for the two-line restart run, consistent with libc sscanf on every
call that run performs: the template "A\n%n" consumes exactly the two bytes
"A\n", the template "B%n" consumes exactly the byte "B", and every other
consulted match fails before `%n`. -/
def cexOracle : ScanOracle := fun cand tmpl =>
  if tmpl = ['A', '\n', '%', 'n'] ∧ cand = ['A', '\n'] then some 2
  else if tmpl = ['B', '%', 'n'] ∧ cand = ['B'] then some 1
  else none

/-- Concrete pattern for the capacity analysis: 2037 literal characters, so
the staged template is 2039 bytes and the candidate region starts at
offset 2040. -/
def c5resp : List Char := List.replicate 2037 'x'

/-- Concrete transport input for the capacity analysis: five 'a' bytes, a
colon, then a newline (97, 58, 10). -/
def c5stream : List Int := List.replicate 5 (97 : Int) ++ [58, 10]

/-- The escaped-comma example documented at ATCmdParser.h line 179:
the bytes of "111,222,333\,33,444". -/
def c8input : List Char :=
  ['1', '1', '1', ',', '2', '2', '2', ',', '3', '3', '3', '\\', ',', '3', '3', ',', '4', '4', '4']

/-- C9: calling process_oob when the transport reports no data available
returns the idle result false immediately, consumes no transport input (no
blocking read), invokes no callback, and leaves the scratch buffer exactly as
it was. -/
theorem process_oob_idle_is_pure (oobs : List OobEntry) (delim : List Char)
    (hasCb : Bool) (buf0 : List Char) (stream : List Int) (fuel : Nat) :
    ATCmdParser_process_oob oobs delim hasCb false buf0 stream fuel
      = some (false, stream, buf0, []) := by
  simp [ATCmdParser_process_oob]

/-- C8, evaluating the code at the documented input: analyse_args applied to
the bytes of "111,222,333\,33,444" with a 4-slot list returns argument
count 4 but the strings ",11", "222", "333\33" and "4444" — not the
documented "111", "222", "333,33", "444": the escape branch writes
`args[i - i]` (index 0) instead of `args[i - 1]`, so the first argument is
corrupted and the backslash stays, and the shifting memcpy does not move the
terminator, duplicating the final byte. -/
theorem analyse_args_documented_example :
    argStrings (ATCmdParser_analyse_args c8input 4)
        = [[',', '1', '1'], ['2', '2', '2'],
           ['3', '3', '3', '\\', '3', '3'], ['4', '4', '4', '4']]
      ∧ (ATCmdParser_analyse_args c8input 4).argNum = 4 := by
  decide

/-- Helper for C4: every run of the vrecv body that starts with the
`_aborted` flag off keeps it off, because no transition sets it: the handler
invocation cannot touch the function-local flag and the restart resets it. -/
theorem runV_abFlag_false_no_abort (oobs : List OobEntry) (oracle : ScanOracle) :
    ∀ fuel ph tr, Phase.abFlag ph = false →
      (runV oobs oracle fuel ph tr).isAborted = false := by
  intro fuel
  induction fuel with
  | zero => intro ph tr _; simp [runV, RResult.isAborted]
  | succ n ih =>
    intro ph tr hab
    cases ph with
    | lines ab resp stream inPrev =>
      cases resp with
      | nil => simp [runV, RResult.isAborted]
      | cons c t =>
        simp only [Phase.abFlag] at hab
        simp only [runV]
        exact ih _ tr hab
    | inLine ab resp tmpl iCon wlw offset st =>
      simp only [Phase.abFlag] at hab
      subst hab
      cases h : innerStep oobs oracle tmpl wlw offset st with
      | timeout s => simp [runV, h, RResult.isAborted]
      | oobHit e st' =>
        simp only [runV, h, if_neg Bool.false_ne_true]
        exact ih _ _ rfl
      | matched cleaned st' =>
        simp only [runV, h]
        exact ih _ _ rfl
      | next st' =>
        simp only [runV, h]
        exact ih _ _ rfl

/-- C4: for every registry, oracle, pattern, transport input and fuel, the
receive never returns the aborted failure.  `_aborted` is a local variable of
ATCmdParser_vrecv that is false on every path reaching the check at line 138
(it is cleared at `restart` and no handler can reach it), so an OOB handler
has no way to make the receive fail with "aborted": after a handler runs the
code always restarts instead. -/
theorem vrecv_never_aborts (oobs : List OobEntry) (oracle : ScanOracle)
    (response : List Char) (stream : List Int) (fuel : Nat) :
    (ATCmdParser_vrecv oobs oracle response stream fuel).isAborted = false :=
  runV_abFlag_false_no_abort oobs oracle fuel _ [] rfl

/-- Helper for C7: the read loop completes exactly when each of the first
`size` transport results is present and non-negative. -/
theorem readLoop_isSome_iff :
    ∀ (size : Nat) (stream : List Int),
      (readLoop stream size).isSome = true ↔ ∀ k < size, 0 ≤ stream.getD k (-1) := by
  intro size
  induction size with
  | zero => intro stream; simp [readLoop]
  | succ n ih =>
    intro stream
    cases stream with
    | nil =>
      simp only [readLoop]
      constructor
      · intro h; simp at h
      · intro h
        have h0 := h 0 (Nat.succ_pos n)
        rw [List.getD_nil] at h0
        omega
    | cons c r =>
      by_cases hc : c < 0
      · simp only [readLoop, if_pos hc]
        constructor
        · intro h; simp at h
        · intro h
          have h0 := h 0 (Nat.succ_pos n)
          rw [List.getD_cons_zero] at h0
          omega
      · have hsome : (readLoop (c :: r) (n + 1)).isSome = (readLoop r n).isSome := by
          simp only [readLoop, if_neg hc]
          cases h : readLoop r n with
          | none => simp
          | some v => cases v with | mk d rest => simp
        rw [hsome, ih r]
        constructor
        · intro h k hk
          cases k with
          | zero => rw [List.getD_cons_zero]; omega
          | succ m =>
            have := h m (Nat.lt_of_succ_lt_succ hk)
            rw [List.getD_cons_succ]
            exact this
        · intro h k hk
          have := h (k + 1) (Nat.succ_lt_succ hk)
          rw [List.getD_cons_succ] at this
          exact this

/-- C7: (1) raw read never returns a partial byte count: its result is the
full size or -1; (2) it returns the full size exactly when every one of the
first `size` per-character reads succeeds (a missing or negative transport
result anywhere makes the whole call fail); (3) during receive, an iteration
whose transport read reports timeout makes the whole receive return the
timeout failure immediately. -/
theorem read_timeout_all_or_nothing :
    (∀ (stream : List Int) (size : Nat),
        ATCmdParser_read stream size = (size : Int)
          ∨ ATCmdParser_read stream size = -1)
  ∧ (∀ (stream : List Int) (size : Nat),
        ATCmdParser_read stream size = (size : Int)
          ↔ ∀ k < size, 0 ≤ stream.getD k (-1))
  ∧ (∀ (oobs : List OobEntry) (oracle : ScanOracle) (resp tmpl : List Char)
        (ab : Bool) (iCon : Nat) (wlw : Bool) (offset : Nat) (st : InnerSt)
        (tr : List Event) (c : Int) (rest : List Int) (fuel : Nat),
        st.stream = c :: rest → c < 0 →
        runV oobs oracle (fuel + 1) (.inLine ab resp tmpl iCon wlw offset st) tr
          = .timeoutFail (c :: rest) tr) := by
  refine ⟨?_, ?_, ?_⟩
  · intro stream size
    cases h : readLoop stream size with
    | none => right; simp [ATCmdParser_read, h]
    | some v => left; simp [ATCmdParser_read, h]
  · intro stream size
    cases h : readLoop stream size with
    | none =>
      have hno : ¬ ∀ k < size, 0 ≤ stream.getD k (-1) := by
        intro hall
        have hsome := (readLoop_isSome_iff size stream).mpr hall
        rw [h] at hsome
        simp at hsome
      simp only [ATCmdParser_read, h]
      constructor
      · intro hcontra; exact absurd hcontra (by omega)
      · intro hall; exact absurd hall hno
    | some v =>
      have hyes : ∀ k < size, 0 ≤ stream.getD k (-1) :=
        (readLoop_isSome_iff size stream).mp (by rw [h]; rfl)
      simp only [ATCmdParser_read, h]
      exact iff_of_true trivial hyes
  · intro oobs oracle resp tmpl ab iCon wlw offset st tr c rest fuel hs hc
    have hstep : innerStep oobs oracle tmpl wlw offset st = .timeout (c :: rest) := by
      simp only [innerStep, hs, if_pos hc]
    have hw : stepWrites offset st = [] := by
      simp only [stepWrites, hs, if_pos hc]
    simp only [runV, hstep, hw, List.map_nil, List.append_nil]

/-- Witness for C7: a concrete receive over the one-element input stream
[-1] whose only read times out; the receive fails at once. -/
theorem read_timeout_all_or_nothing_witness :
    runV [] oracleNone 1
        (.inLine false ['x'] ['x', '%', 'n'] 1 false 4 ⟨[-1], [], [], nulChar⟩) []
      = .timeoutFail [-1] [] :=
  read_timeout_all_or_nothing.2.2 [] oracleNone ['x'] ['x', '%', 'n']
    false 1 false 4 ⟨[-1], [], [], nulChar⟩ [] (-1) [] 0 rfl (by norm_num)

/-- The OOB scan only answers an entry when the accumulated bytes equal its
prefix exactly (given the registry invariant `len = strlen(prefix)`
established by ATCmdParser_add_oob). -/
theorem findOob_eq_some (oobs : List OobEntry) (cand : List Char) (e : OobEntry)
    (hwf : ∀ e' ∈ oobs, e'.len = e'.pfx.length) :
    findOob oobs cand = some e → e ∈ oobs ∧ cand = e.pfx := by
  induction oobs with
  | nil => intro h; simp [findOob] at h
  | cons a rest ih =>
    intro h
    simp only [findOob] at h
    split at h
    · rename_i hcond
      injection h with h'
      subst h'
      have ha := hwf a (List.mem_cons_self a rest)
      obtain ⟨hlen, htake⟩ := hcond
      refine ⟨List.mem_cons_self a rest, ?_⟩
      calc cand = cand.take a.len := by rw [← hlen, List.take_length]
        _ = a.pfx.take a.len := htake
        _ = a.pfx := by rw [ha, List.take_length]
    · have hr := ih (fun e' he' => hwf e' (List.mem_cons_of_mem a he')) h
      exact ⟨List.mem_cons_of_mem a hr.1, hr.2⟩

/-- If the accumulated bytes equal the prefix of a registered entry and no
other entry shares that prefix, the registry scan answers that entry. -/
theorem findOob_first (oobs : List OobEntry) (cand : List Char) (P : OobEntry)
    (hwf : ∀ e' ∈ oobs, e'.len = e'.pfx.length)
    (hP : P ∈ oobs) (hcand : cand = P.pfx)
    (huniq : ∀ e ∈ oobs, e.pfx = P.pfx → e = P) :
    findOob oobs cand = some P := by
  induction oobs with
  | nil => cases hP
  | cons a rest ih =>
    have ha := hwf a (List.mem_cons_self a rest)
    simp only [findOob]
    by_cases hc : cand.length = a.len ∧ cand.take a.len = a.pfx.take a.len
    · rw [if_pos hc]
      have hceq : cand = a.pfx := by
        calc cand = cand.take a.len := by rw [← hc.1, List.take_length]
          _ = a.pfx.take a.len := hc.2
          _ = a.pfx := by rw [ha, List.take_length]
      exact congrArg some (huniq a (List.mem_cons_self a rest) (by rw [← hceq, hcand]))
    · rw [if_neg hc]
      have hPa : P ≠ a := by
        intro hPe
        apply hc
        subst hPe
        constructor
        · rw [hcand, ha]
        · rw [hcand]
      rcases List.mem_cons.mp hP with h1 | h2
      · exact absurd h1.symm (fun hh => hPa hh.symm)
      · exact ih (fun e' he' => hwf e' (List.mem_cons_of_mem a he')) h2
          (fun e he hpe => huniq e (List.mem_cons_of_mem a he) hpe)

/-- A reset-or-continue outcome is never the matched outcome. -/
theorem ite_next_ne (p : Prop) [Decidable p] (a b : InnerSt)
    (cleaned : List Char) (st' : InnerSt) :
    (if p then StepRes.next a else StepRes.next b) ≠ StepRes.matched cleaned st' := by
  by_cases h : p
  · rw [if_pos h]; exact fun hx => StepRes.noConfusion hx
  · rw [if_neg h]; exact fun hx => StepRes.noConfusion hx

/-- C1: in an iteration that reaches the verification point (a byte was
received and the candidate matched no OOB prefix), the line is accepted —
the iteration produces the `matched` outcome — exactly when the verification
pass ran (not suppressed by `whole_line_wanted`) and the count it reports
equals the candidate length `j` exactly; in particular an sscanf that
consumes only a proper prefix of the candidate is never accepted. -/
theorem verify_requires_full_consumption (oobs : List OobEntry)
    (oracle : ScanOracle) (tmpl : List Char) (wlw : Bool) (offset : Nat)
    (st : InnerSt) (c : Int) (rest : List Int) (cand2 : List Char)
    (hs : st.stream = c :: rest) (hc : ¬ c < 0)
    (hcand : cand2 =
      (if toChar c = '\n' ∧ st.inPrev = ':' then st.cand ++ ['x'] else st.cand) ++ [toChar c])
    (hoob : findOob oobs cand2 = none) :
    ((∃ cleaned st', innerStep oobs oracle tmpl wlw offset st = .matched cleaned st')
        ↔ (¬(wlw = true ∧ toChar c ≠ '\n') ∧ oracle cand2 tmpl = some cand2.length))
    ∧ ∀ n, oracle cand2 tmpl = some n → n < cand2.length →
        ∀ cleaned st', innerStep oobs oracle tmpl wlw offset st ≠ .matched cleaned st' := by
  have hneg : ¬ ((-1 : Int) = (cand2.length : Int)) := by omega
  have hiff :
      (∃ cleaned st', innerStep oobs oracle tmpl wlw offset st = .matched cleaned st')
        ↔ (¬(wlw = true ∧ toChar c ≠ '\n') ∧ oracle cand2 tmpl = some cand2.length) := by
    simp only [innerStep, hs, if_neg hc]
    rw [← hcand, hoob]
    by_cases hv : wlw = true ∧ toChar c ≠ '\n'
    · rw [if_pos hv, if_neg hneg]
      constructor
      · intro hex
        obtain ⟨cleaned, st', hx⟩ := hex
        exact absurd hx (ite_next_ne _ _ _ _ _)
      · intro hcon
        exact absurd hv hcon.1
    · rw [if_neg hv]
      cases ho : oracle cand2 tmpl with
      | none =>
        rw [if_neg hneg]
        constructor
        · intro hex
          obtain ⟨cleaned, st', hx⟩ := hex
          exact absurd hx (ite_next_ne _ _ _ _ _)
        · intro hcon
          exact Option.noConfusion hcon.2
      | some n =>
        by_cases hn : (n : Int) = (cand2.length : Int)
        · rw [if_pos hn]
          have hnn : n = cand2.length := by omega
          subst hnn
          exact iff_of_true ⟨_, _, rfl⟩ ⟨hv, rfl⟩
        · rw [if_neg hn]
          constructor
          · intro hex
            obtain ⟨cleaned, st', hx⟩ := hex
            exact absurd hx (ite_next_ne _ _ _ _ _)
          · intro hcon
            have hn2 : n = cand2.length := by injection hcon.2
            exact absurd (by omega : (n : Int) = (cand2.length : Int)) hn
  refine ⟨hiff, ?_⟩
  intro n ho hlt cleaned st' hx
  have := hiff.mp ⟨cleaned, st', hx⟩
  rw [ho] at this
  have hn : n = cand2.length := by injection this.2
  omega

/-- Witness for C1: a concrete iteration receiving the byte 65 with an
sscanf oracle that consumes the whole candidate; the acceptance criterion is
exercised at candidate [toChar 65]. -/
theorem verify_requires_full_consumption_witness :
    ((∃ cleaned st',
        innerStep [] oracleLen ['%', 'n'] false 3 ⟨[65], [], [], nulChar⟩
          = .matched cleaned st')
      ↔ (¬(false = true ∧ toChar 65 ≠ '\n')
          ∧ oracleLen [toChar 65] ['%', 'n'] = some ([toChar 65].length)))
    ∧ ∀ n, oracleLen [toChar 65] ['%', 'n'] = some n → n < [toChar 65].length →
        ∀ cleaned st',
          innerStep [] oracleLen ['%', 'n'] false 3 ⟨[65], [], [], nulChar⟩
            ≠ .matched cleaned st' :=
  verify_requires_full_consumption [] oracleLen ['%', 'n'] false 3
    ⟨[65], [], [], nulChar⟩ 65 [] [toChar 65] rfl (by norm_num) (by decide) rfl

/-- C10: an OOB prefix is detected only as the entire accumulated candidate:
(1) the registry scan answers an entry exactly for candidates equal to its
prefix; (2) during receive, an iteration that invokes a handler has a
candidate equal to that entry's prefix, so a prefix occurrence preceded by
any other byte in the same accumulation run is not what fired; (3) the same
holds for the idle poller, whose accumulated bytes are the first `i` bytes of
the scratch buffer.  (Registry well-formedness `len = strlen(prefix)` is the
invariant established by ATCmdParser_add_oob.) -/
theorem oob_detect_requires_whole_candidate :
    (∀ (oobs : List OobEntry) (cand : List Char) (e : OobEntry),
        (∀ e' ∈ oobs, e'.len = e'.pfx.length) →
        findOob oobs cand = some e → e ∈ oobs ∧ cand = e.pfx)
  ∧ (∀ (oobs : List OobEntry) (oracle : ScanOracle) (tmpl : List Char)
        (wlw : Bool) (offset : Nat) (st : InnerSt) (e : OobEntry) (st' : InnerSt),
        (∀ e' ∈ oobs, e'.len = e'.pfx.length) →
        innerStep oobs oracle tmpl wlw offset st = .oobHit e st' →
        st'.cand = e.pfx ∧ ∀ pre, pre ≠ [] → st'.cand ≠ pre ++ e.pfx)
  ∧ (∀ (oobs : List OobEntry) (delim : List Char) (hasCb : Bool)
        (st : OobPollSt) (e : OobEntry) (st' : OobPollSt),
        (∀ e' ∈ oobs, e'.len = e'.pfx.length) →
        pollStep oobs delim hasCb st = .handled e st' →
        st'.buf.take st'.i = e.pfx ∧ ∀ pre, pre ≠ [] → st'.buf.take st'.i ≠ pre ++ e.pfx) := by
  have hlen : ∀ (x : List Char) (e : OobEntry), x = e.pfx →
      ∀ pre, pre ≠ [] → x ≠ pre ++ e.pfx := by
    intro x e hx pre hpre hcontra
    rw [hx] at hcontra
    have hl := congrArg List.length hcontra
    rw [List.length_append] at hl
    exact hpre (List.eq_nil_of_length_eq_zero (by omega))
  refine ⟨?_, ?_, ?_⟩
  · intro oobs cand e hwf h
    exact findOob_eq_some oobs cand e hwf h
  · intro oobs oracle tmpl wlw offset st e st' hwf h
    cases hs : st.stream with
    | nil =>
      simp only [innerStep, hs] at h
      exact StepRes.noConfusion h
    | cons c rest =>
      by_cases hc : c < 0
      · simp only [innerStep, hs, if_pos hc] at h
        exact StepRes.noConfusion h
      · simp only [innerStep, hs, if_neg hc] at h
        cases hf : findOob oobs
            ((if toChar c = '\n' ∧ st.inPrev = ':' then st.cand ++ ['x'] else st.cand)
              ++ [toChar c]) with
        | some a =>
          rw [hf] at h
          injection h with h1 h2
          subst h1
          subst h2
          have hca := (findOob_eq_some _ _ _ hwf hf).2
          exact ⟨hca, hlen _ _ hca⟩
        | none =>
          rw [hf] at h
          by_cases hcnt : (if wlw = true ∧ toChar c ≠ '\n' then (-1 : Int)
              else match oracle ((if toChar c = '\n' ∧ st.inPrev = ':' then st.cand ++ ['x'] else st.cand) ++ [toChar c]) tmpl with
                   | some n => (n : Int)
                   | none => -1)
              = (((if toChar c = '\n' ∧ st.inPrev = ':' then st.cand ++ ['x'] else st.cand) ++ [toChar c]).length : Int)
          · rw [if_pos hcnt] at h
            exact StepRes.noConfusion h
          · rw [if_neg hcnt] at h
            exact absurd h (by
              by_cases hb : toChar c = '\n' ∨ AT_BUFFER_SIZE ≤ offset +
                  ((if toChar c = '\n' ∧ st.inPrev = ':' then st.cand ++ ['x'] else st.cand) ++ [toChar c]).length + 1
              · rw [if_pos hb]; exact fun hx => StepRes.noConfusion hx
              · rw [if_neg hb]; exact fun hx => StepRes.noConfusion hx)
  · intro oobs delim hasCb st e st' hwf h
    cases hs : st.stream with
    | nil =>
      simp only [pollStep, hs] at h
      exact PollRes.noConfusion h
    | cons c rest =>
      by_cases hc : c < 0
      · simp only [pollStep, hs, if_pos hc] at h
        exact PollRes.noConfusion h
      · simp only [pollStep, hs, if_neg hc] at h
        cases hf : findOob oobs
            (((st.buf.set st.i (toChar c)).set (st.i + 1) nulChar).take (st.i + 1)) with
        | some a =>
          rw [hf] at h
          injection h with h1 h2
          subst h1
          subst h2
          have hca := (findOob_eq_some _ _ _ hwf hf).2
          exact ⟨hca, hlen _ _ hca⟩
        | none =>
          rw [hf] at h
          exact absurd h (by
            by_cases hb : AT_BUFFER_SIZE ≤ st.i + 1 + 1 ∨
                (delim.length ≤ st.i + 1 ∧
                  (((st.buf.set st.i (toChar c)).set (st.i + 1) nulChar).take (st.i + 1)).drop
                      (st.i + 1 - delim.length) = delim)
            · rw [if_pos hb]; exact fun hx => PollRes.noConfusion hx
            · rw [if_neg hb]; exact fun hx => PollRes.noConfusion hx)

/-- Witness for C10: a one-entry registry with prefix "+A"; the scan answers
it for the exact candidate, and the candidate of a concrete handler-invoking
iteration is not any nonempty-prefixed extension of "+A". -/
theorem oob_detect_requires_whole_candidate_witness :
    ((⟨2, ['+', 'A'], 7⟩ : OobEntry) ∈ [(⟨2, ['+', 'A'], 7⟩ : OobEntry)]
      ∧ ['+', 'A'] = (⟨2, ['+', 'A'], 7⟩ : OobEntry).pfx)
    ∧ (⟨[], ['+', 'A'], [], 'A'⟩ : InnerSt).cand
        ≠ ['x'] ++ (⟨2, ['+', 'A'], 7⟩ : OobEntry).pfx :=
  ⟨oob_detect_requires_whole_candidate.1 [⟨2, ['+', 'A'], 7⟩] ['+', 'A']
      ⟨2, ['+', 'A'], 7⟩ (by decide) (by decide),
    (oob_detect_requires_whole_candidate.2.1 [⟨2, ['+', 'A'], 7⟩] oracleNone
        ['%', 'n'] false 3 ⟨[65], ['+'], [], '+'⟩ ⟨2, ['+', 'A'], 7⟩
        ⟨[], ['+', 'A'], [], 'A'⟩ (by decide) (by decide)).2 ['x'] (by decide)⟩

/-- C3 (amended): an iteration whose accumulated candidate equals exactly
the bytes of a registered prefix P (P being the only entry with that prefix)
invokes P's handler exactly once — the trace is extended by that single
invocation event — and the receive performs `goto restart` (line 144): it
abandons the in-progress match of the current line and re-enters the outer
loop at the *current* remaining pattern text, because the advance
`response += i` past previously matched lines (line 177) is never undone;
re-entering the outer loop (second conjunct) stages the current line's
template afresh and starts with an empty candidate (`j = 0`, `dummy = 0`). -/
theorem oob_hit_restarts_current_line (oobs : List OobEntry) (oracle : ScanOracle)
    (resp tmpl : List Char) (iCon : Nat) (wlw : Bool) (offset : Nat)
    (st : InnerSt) (c : Int) (rest : List Int) (tr : List Event) (fuel : Nat)
    (P : OobEntry) (cand2 : List Char)
    (hwf : ∀ e ∈ oobs, e.len = e.pfx.length)
    (hs : st.stream = c :: rest) (hc : ¬ c < 0)
    (hcand : cand2 =
      (if toChar c = '\n' ∧ st.inPrev = ':' then st.cand ++ ['x'] else st.cand) ++ [toChar c])
    (hP : P ∈ oobs) (heq : cand2 = P.pfx)
    (huniq : ∀ e ∈ oobs, e.pfx = P.pfx → e = P) :
    runV oobs oracle (fuel + 1) (.inLine false resp tmpl iCon wlw offset st) tr
      = runV oobs oracle fuel (.lines false resp rest (toChar c))
          ((tr ++ (stepWrites offset st).map Event.bufWrite) ++ [Event.oobCall P.cb P.pfx])
    ∧ ∀ (stream : List Int) (inPrev : Char) (tr' : List Event) (h0 : Char) (t0 : List Char),
        resp = h0 :: t0 →
        runV oobs oracle (fuel + 1) (.lines false resp stream inPrev) tr'
          = runV oobs oracle fuel
              (.inLine false resp (prepLine resp).1 (prepLine resp).2.1 (prepLine resp).2.2
                ((prepLine resp).1.length + 1) ⟨stream, [], [], inPrev⟩) tr' := by
  have hfind : findOob oobs cand2 = some P := findOob_first oobs cand2 P hwf hP heq huniq
  have hstep : innerStep oobs oracle tmpl wlw offset st
      = .oobHit P ⟨rest, cand2,
          (if toChar c = '\n' ∧ st.inPrev = ':' then st.dpos ++ [st.cand.length] else st.dpos),
          toChar c⟩ := by
    simp only [innerStep, hs, if_neg hc]
    rw [← hcand, hfind]
  constructor
  · simp only [runV, hstep, Bool.false_eq_true, if_false]
  · intro stream inPrev tr' h0 t0 hr
    rw [hr]
    simp only [runV]

/-- Helper for C6: the only iteration outcome that is a timeout comes from a
transport read that returned no byte: either the input is exhausted or its
head is negative. -/
theorem innerStep_timeout_inv (oobs : List OobEntry) (oracle : ScanOracle)
    (tmpl : List Char) (wlw : Bool) (offset : Nat) (st : InnerSt) (s : List Int) :
    innerStep oobs oracle tmpl wlw offset st = .timeout s →
    s = [] ∨ ∃ c r, s = c :: r ∧ c < 0 := by
  intro h
  cases hs : st.stream with
  | nil =>
    simp only [innerStep, hs] at h
    injection h with h1
    exact Or.inl h1.symm
  | cons c rest =>
    by_cases hc : c < 0
    · simp only [innerStep, hs, if_pos hc] at h
      injection h with h1
      exact Or.inr ⟨c, rest, h1.symm, hc⟩
    · simp only [innerStep, hs, if_neg hc] at h
      cases hf : findOob oobs
          ((if toChar c = '\n' ∧ st.inPrev = ':' then st.cand ++ ['x'] else st.cand)
            ++ [toChar c]) with
      | some a => rw [hf] at h; exact StepRes.noConfusion h
      | none =>
        rw [hf] at h
        by_cases h1 : (if wlw = true ∧ toChar c ≠ '\n' then (-1 : Int)
            else match oracle ((if toChar c = '\n' ∧ st.inPrev = ':' then st.cand ++ ['x'] else st.cand) ++ [toChar c]) tmpl with
                 | some n => (n : Int)
                 | none => -1)
            = ((((if toChar c = '\n' ∧ st.inPrev = ':' then st.cand ++ ['x'] else st.cand) ++ [toChar c]).length : Int))
        · rw [if_pos h1] at h
          exact StepRes.noConfusion h
        · rw [if_neg h1] at h
          by_cases h2 : toChar c = '\n' ∨ AT_BUFFER_SIZE ≤ offset +
              ((if toChar c = '\n' ∧ st.inPrev = ':' then st.cand ++ ['x'] else st.cand) ++ [toChar c]).length + 1
          · rw [if_pos h2] at h
            exact StepRes.noConfusion h
          · rw [if_neg h2] at h
            exact StepRes.noConfusion h

/-- C6: (1) an iteration at a line terminator or at the capacity bound whose
candidate neither matched an OOB prefix nor verified resets the candidate
length and filler count to zero and reading continues — the receive does not
fail there; (2) whenever the receive does return the timeout failure, the
transport input at the point of failure was exhausted or its head was a
negative (timed-out) read: only a read timeout (or an abort) ends the call
with failure, never a failed line. -/
theorem failed_line_resets_and_continues :
    (∀ (oobs : List OobEntry) (oracle : ScanOracle) (resp tmpl : List Char)
        (iCon : Nat) (wlw : Bool) (offset : Nat) (st : InnerSt) (c : Int)
        (rest : List Int) (cand2 : List Char) (tr : List Event) (fuel : Nat),
        st.stream = c :: rest → ¬ c < 0 →
        cand2 = (if toChar c = '\n' ∧ st.inPrev = ':' then st.cand ++ ['x'] else st.cand) ++ [toChar c] →
        findOob oobs cand2 = none →
        ¬(¬(wlw = true ∧ toChar c ≠ '\n') ∧ oracle cand2 tmpl = some cand2.length) →
        (toChar c = '\n' ∨ AT_BUFFER_SIZE ≤ offset + cand2.length + 1) →
        innerStep oobs oracle tmpl wlw offset st = .next ⟨rest, [], [], toChar c⟩
        ∧ runV oobs oracle (fuel + 1) (.inLine false resp tmpl iCon wlw offset st) tr
            = runV oobs oracle fuel
                (.inLine false resp tmpl iCon wlw offset ⟨rest, [], [], toChar c⟩)
                (tr ++ (stepWrites offset st).map Event.bufWrite))
  ∧ (∀ (oobs : List OobEntry) (oracle : ScanOracle)
        (fuel : Nat) (ph : Phase) (tr : List Event) (s : List Int) (tr' : List Event),
        runV oobs oracle fuel ph tr = .timeoutFail s tr' →
        s = [] ∨ ∃ cneg r, s = cneg :: r ∧ cneg < 0) := by
  constructor
  · intro oobs oracle resp tmpl iCon wlw offset st c rest cand2 tr fuel
      hs hc hcand hoob hnm hb
    have hcount : (if wlw = true ∧ toChar c ≠ '\n' then (-1 : Int)
        else match oracle cand2 tmpl with
             | some n => (n : Int)
             | none => -1) ≠ (cand2.length : Int) := by
      by_cases hv : wlw = true ∧ toChar c ≠ '\n'
      · rw [if_pos hv]
        omega
      · rw [if_neg hv]
        cases ho : oracle cand2 tmpl with
        | none =>
          show (-1 : Int) ≠ (cand2.length : Int)
          omega
        | some n =>
          show (n : Int) ≠ (cand2.length : Int)
          intro hcast
          exact hnm ⟨hv, by rw [ho]; exact congrArg some (by omega)⟩
    have hstep : innerStep oobs oracle tmpl wlw offset st = .next ⟨rest, [], [], toChar c⟩ := by
      simp only [innerStep, hs, if_neg hc]
      rw [← hcand, hoob]
      dsimp only
      rw [if_neg hcount, if_pos hb]
    exact ⟨hstep, by simp only [runV, hstep]⟩
  · intro oobs oracle fuel
    induction fuel with
    | zero =>
      intro ph tr s tr' h
      simp only [runV] at h
      exact RResult.noConfusion h
    | succ n ih =>
      intro ph tr s tr' h
      cases ph with
      | lines ab resp stream inPrev =>
        cases resp with
        | nil =>
          simp only [runV] at h
          exact RResult.noConfusion h
        | cons c0 t0 =>
          simp only [runV] at h
          exact ih _ _ _ _ h
      | inLine ab resp tmpl iCon wlw offset st =>
        simp only [runV] at h
        cases hstep : innerStep oobs oracle tmpl wlw offset st with
        | timeout s2 =>
          rw [hstep] at h
          dsimp only at h
          injection h with h1 h2
          have hprop := innerStep_timeout_inv oobs oracle tmpl wlw offset st s2 hstep
          rw [h1] at hprop
          exact hprop
        | oobHit e st' =>
          rw [hstep] at h
          dsimp only at h
          by_cases hab : ab = true
          · rw [if_pos hab] at h
            exact RResult.noConfusion h
          · rw [if_neg hab] at h
            exact ih _ _ _ _ h
        | matched cleaned st' =>
          rw [hstep] at h
          dsimp only at h
          exact ih _ _ _ _ h
        | next st' =>
          rw [hstep] at h
          dsimp only at h
          exact ih _ _ _ _ h

/-- Witness for C3: a one-entry registry with prefix "+A"; feeding '+' then
byte 65 while the remaining pattern is "OK" invokes the handler once and
restarts at that same remaining pattern with a freshly staged template and
empty candidate. -/
theorem oob_hit_restarts_current_line_witness :
    (runV [⟨2, ['+', 'A'], 7⟩] oracleNone 1
        (.inLine false ['O', 'K'] ['O', 'K', '%', 'n'] 2 false 5 ⟨[65], ['+'], [], '+'⟩) []
      = runV [⟨2, ['+', 'A'], 7⟩] oracleNone 0
          (.lines false ['O', 'K'] [] (toChar 65))
          (([] ++ (stepWrites 5 ⟨[65], ['+'], [], '+'⟩).map Event.bufWrite)
            ++ [Event.oobCall (⟨2, ['+', 'A'], 7⟩ : OobEntry).cb (⟨2, ['+', 'A'], 7⟩ : OobEntry).pfx]))
    ∧ (runV [⟨2, ['+', 'A'], 7⟩] oracleNone 1
          (.lines false ['O', 'K'] [3] 'q') []
        = runV [⟨2, ['+', 'A'], 7⟩] oracleNone 0
            (.inLine false ['O', 'K'] (prepLine ['O', 'K']).1 (prepLine ['O', 'K']).2.1
              (prepLine ['O', 'K']).2.2 ((prepLine ['O', 'K']).1.length + 1)
              ⟨[3], [], [], 'q'⟩) []) := by
  have h := oob_hit_restarts_current_line [⟨2, ['+', 'A'], 7⟩] oracleNone ['O', 'K']
    ['O', 'K', '%', 'n'] 2 false 5 ⟨[65], ['+'], [], '+'⟩ 65 [] [] 0 ⟨2, ['+', 'A'], 7⟩
    ['+', 'A'] (by decide) rfl (by norm_num) (by decide) (by decide) (by decide) (by decide)
  exact ⟨h.1, h.2 [3] 'q' [] 'O' ['K'] rfl⟩

/-- Counterexample to C3 as stated: the pattern is the two lines "A\n" and
"B"; the transport supplies the bytes of line one exactly once, then the
registered OOB prefix '+', then the single byte 'B'.  The receive succeeds,
and the trace shows the handler invocation followed directly by the
extraction of line two, with no second extraction of line one: after the OOB
hit, matching resumed at the current (second) line.  Had the receive
restarted from the first pattern line as the claim states, the one remaining
byte 'B' could not have matched "A\n" and this input would have timed out
instead of returning success. -/
theorem oob_restart_not_first_line_counterexample :
    ATCmdParser_vrecv [⟨1, ['+'], 7⟩] cexOracle ['A', '\n', 'B'] [65, 10, 43, 66] 20
      = .ok []
          [Event.bufWrite 5, Event.bufWrite 6, Event.bufWrite 6, Event.bufWrite 7,
           Event.extract ['A', '\n'] ['A', '\n'],
           Event.bufWrite 4, Event.bufWrite 5, Event.oobCall 7 ['+'],
           Event.bufWrite 4, Event.bufWrite 5, Event.extract ['B'] ['B']] := by
  decide

/-- Witness for C6: a concrete newline boundary without a match resets the
candidate and continues, and a concrete timeout failure happens at a
negative transport result. -/
theorem failed_line_resets_and_continues_witness :
    (innerStep [] oracleNone ['x', '%', 'n'] false 4 ⟨[10], ['a'], [], 'a'⟩
        = .next ⟨[], [], [], toChar 10⟩
      ∧ runV [] oracleNone 1
            (.inLine false ['x'] ['x', '%', 'n'] 1 false 4 ⟨[10], ['a'], [], 'a'⟩) []
          = runV [] oracleNone 0
              (.inLine false ['x'] ['x', '%', 'n'] 1 false 4 ⟨[], [], [], toChar 10⟩)
              ([] ++ (stepWrites 4 ⟨[10], ['a'], [], 'a'⟩).map Event.bufWrite))
    ∧ (([-1] : List Int) = [] ∨ ∃ cneg r, ([-1] : List Int) = cneg :: r ∧ cneg < 0) := by
  refine ⟨?_, ?_⟩
  · exact failed_line_resets_and_continues.1 [] oracleNone ['x'] ['x', '%', 'n']
      1 false 4 ⟨[10], ['a'], [], 'a'⟩ 10 [] ['a', toChar 10] [] 0 rfl (by norm_num)
      (by decide) rfl (by decide) (by decide)
  · exact failed_line_resets_and_continues.2 [] oracleNone 1
      (.inLine false ['x'] ['x', '%', 'n'] 1 false 4 ⟨[-1], [], [], nulChar⟩) [] [-1] []
      (by decide)

/-- Indexing a take within range. -/
theorem get?_take_lt (l : List Char) (n m : Nat) (h : m < n) :
    (l.take n).get? m = l.get? m := by
  rw [List.get?_eq_getElem?, List.get?_eq_getElem?, List.getElem?_take_of_lt h]

/-- The staging loop consumes at least one character from a nonempty line. -/
theorem rewriteGo_pos (c : Char) (rest : List Char) (p2 p1 : Option Char) :
    1 ≤ (rewriteGo (c :: rest) p2 p1).2.1 := by
  simp only [rewriteGo]
  by_cases hA : c = '%' ∧ rest.head? ≠ some '%' ∧ rest.head? ≠ some '*'
  · rw [if_pos hA]
    dsimp only
    omega
  · rw [if_neg hA]
    by_cases hB : c = '\n' ∧ ¬(p2 = some '[' ∧ p1 = some '^')
    · rw [if_pos hB]
    · rw [if_neg hB]
      dsimp only
      omega

/-- Taking a positive count preserves the head. -/
theorem head?_take_pos (l : List Char) (n : Nat)
    (h : ∀ a t, l = a :: t → 1 ≤ n) : (l.take n).head? = l.head? := by
  cases l with
  | nil => simp
  | cons a t =>
    have h1 := h a t rfl
    cases n with
    | zero => omega
    | succ m => simp [List.take_succ_cons]

/-- Shifting the look-behind context across a cons cell. -/
theorem ctxAt_cons (c : Char) (rest : List Char) (p2 p1 : Option Char)
    (p k : Nat) (hp : 1 ≤ p) (hk : k ≤ p + 1) :
    ctxAt p2 p1 (c :: rest) p k = ctxAt p1 (some c) rest (p - 1) k := by
  unfold ctxAt
  by_cases h1 : k ≤ p
  · by_cases h2 : k ≤ p - 1
    · rw [if_pos h1, if_pos h2]
      have h3 : p - k = (p - 1 - k) + 1 := by omega
      rw [h3, List.get?_cons_succ]
    · rw [if_pos h1, if_neg h2, if_pos (by omega : k = (p - 1) + 1)]
      have h3 : p - k = 0 := by omega
      rw [h3, List.get?_cons_zero]
  · rw [if_neg h1, if_pos (by omega : k = p + 1)]
    rw [if_neg (by omega : ¬ k ≤ p - 1), if_neg (by omega : ¬ k = (p - 1) + 1),
      if_pos (by omega : k = (p - 1) + 2)]

/-- Shifting a bare-newline position across a cons cell, when position zero
is not itself a bare newline. -/
theorem bareNL_shift (c : Char) (rest : List Char) (p2 p1 : Option Char) (n : Nat)
    (h0 : ¬((c :: rest).get? 0 = some '\n' ∧
        ¬(ctxAt p2 p1 (c :: rest) 0 2 = some '[' ∧ ctxAt p2 p1 (c :: rest) 0 1 = some '^'))) :
    (∃ p, p < n + 1 ∧ (c :: rest).get? p = some '\n' ∧
        ¬(ctxAt p2 p1 (c :: rest) p 2 = some '[' ∧ ctxAt p2 p1 (c :: rest) p 1 = some '^'))
      ↔ ∃ q, q < n ∧ rest.get? q = some '\n' ∧
        ¬(ctxAt p1 (some c) rest q 2 = some '[' ∧ ctxAt p1 (some c) rest q 1 = some '^') := by
  constructor
  · rintro ⟨p, hp, hnl, hg⟩
    cases p with
    | zero => exact absurd ⟨hnl, hg⟩ h0
    | succ q =>
      refine ⟨q, by omega, ?_, ?_⟩
      · rw [List.get?_cons_succ] at hnl
        exact hnl
      · have e2 := ctxAt_cons c rest p2 p1 (q + 1) 2 (by omega) (by omega)
        have e1 := ctxAt_cons c rest p2 p1 (q + 1) 1 (by omega) (by omega)
        rw [e2, e1] at hg
        simp only [Nat.add_sub_cancel] at hg
        exact hg
  · rintro ⟨q, hq, hnl, hg⟩
    refine ⟨q + 1, by omega, ?_, ?_⟩
    · rw [List.get?_cons_succ]
      exact hnl
    · have e2 := ctxAt_cons c rest p2 p1 (q + 1) 2 (by omega) (by omega)
      have e1 := ctxAt_cons c rest p2 p1 (q + 1) 1 (by omega) (by omega)
      rw [e2, e1]
      simp only [Nat.add_sub_cancel]
      exact hg

/-- The look-behind context at position zero. -/
theorem ctxAt_zero_two (p2 p1 : Option Char) (l : List Char) :
    ctxAt p2 p1 l 0 2 = p2 := by
  unfold ctxAt
  rw [if_neg (by omega), if_neg (by omega), if_pos rfl]

/-- The look-behind context one before position zero. -/
theorem ctxAt_zero_one (p2 p1 : Option Char) (l : List Char) :
    ctxAt p2 p1 l 0 1 = p1 := by
  unfold ctxAt
  rw [if_neg (by omega), if_pos rfl]

/-- Main characterisation of the staging loop: the rewritten bytes are the
spec's percent substitution of the consumed segment, the consumed count is
bounded by the line length, and `whole_line_wanted` is set exactly when the
consumed segment contains a newline whose look-behind is not "[^". -/
theorem rewriteGo_spec : ∀ (l : List Char) (p2 p1 : Option Char),
    (rewriteGo l p2 p1).1 = specRewrite (l.take (rewriteGo l p2 p1).2.1)
    ∧ (rewriteGo l p2 p1).2.1 ≤ l.length
    ∧ ((rewriteGo l p2 p1).2.2 = true ↔
        ∃ p, p < (rewriteGo l p2 p1).2.1 ∧ l.get? p = some '\n' ∧
          ¬(ctxAt p2 p1 l p 2 = some '[' ∧ ctxAt p2 p1 l p 1 = some '^')) := by
  intro l
  induction l with
  | nil =>
    intro p2 p1
    refine ⟨rfl, Nat.le_refl 0, ?_⟩
    simp [rewriteGo]
  | cons c rest ih =>
    intro p2 p1
    by_cases hA : c = '%' ∧ rest.head? ≠ some '%' ∧ rest.head? ≠ some '*'
    · have hr := ih p1 (some '%')
      have hrw : rewriteGo (c :: rest) p2 p1
          = ('%' :: '*' :: (rewriteGo rest p1 (some '%')).1,
             (rewriteGo rest p1 (some '%')).2.1 + 1,
             (rewriteGo rest p1 (some '%')).2.2) := by
        simp only [rewriteGo, if_pos hA]
      rw [hrw]
      have hhead : (rest.take (rewriteGo rest p1 (some '%')).2.1).head? = rest.head? :=
        head?_take_pos rest _ (fun a t ht => by rw [ht]; exact rewriteGo_pos a t p1 (some '%'))
      refine ⟨?_, ?_, ?_⟩
      · dsimp only
        rw [List.take_succ_cons]
        simp only [specRewrite]
        rw [if_pos ⟨hA.1, by rw [hhead]; exact hA.2.1, by rw [hhead]; exact hA.2.2⟩]
        rw [hr.1]
      · dsimp only
        have := hr.2.1
        simp only [List.length_cons]
        omega
      · dsimp only
        rw [hr.2.2, hA.1]
        refine (bareNL_shift '%' rest p2 p1 _ ?_).symm
        intro hcon
        have hnl := hcon.1
        rw [List.get?_cons_zero] at hnl
        injection hnl with hc'
        exact absurd hc' (by decide)
    · by_cases hB : c = '\n' ∧ ¬(p2 = some '[' ∧ p1 = some '^')
      · have hrw : rewriteGo (c :: rest) p2 p1 = ([c], 1, true) := by
          simp only [rewriteGo, if_neg hA, if_pos hB]
        rw [hrw]
        refine ⟨?_, ?_, ?_⟩
        · dsimp only
          have ht1 : (c :: rest).take 1 = [c] := by simp
          rw [ht1]
          simp only [specRewrite]
          rw [if_neg (fun hcon => absurd (hB.1.symm.trans hcon.1) (by decide))]
        · dsimp only
          simp only [List.length_cons]
          omega
        · dsimp only
          refine iff_of_true rfl ⟨0, by omega, ?_, ?_⟩
          · rw [List.get?_cons_zero, hB.1]
          · rw [ctxAt_zero_two, ctxAt_zero_one]
            exact hB.2
      · have hr := ih p1 (some c)
        have hrw : rewriteGo (c :: rest) p2 p1
            = (c :: (rewriteGo rest p1 (some c)).1,
               (rewriteGo rest p1 (some c)).2.1 + 1,
               (rewriteGo rest p1 (some c)).2.2) := by
          simp only [rewriteGo, if_neg hA, if_neg hB]
        rw [hrw]
        have hhead : (rest.take (rewriteGo rest p1 (some c)).2.1).head? = rest.head? :=
          head?_take_pos rest _ (fun a t ht => by rw [ht]; exact rewriteGo_pos a t p1 (some c))
        refine ⟨?_, ?_, ?_⟩
        · dsimp only
          rw [List.take_succ_cons]
          simp only [specRewrite]
          rw [if_neg (fun hcon =>
            hA ⟨hcon.1, by rw [← hhead]; exact hcon.2.1, by rw [← hhead]; exact hcon.2.2⟩)]
          rw [hr.1]
        · dsimp only
          have := hr.2.1
          simp only [List.length_cons]
          omega
        · dsimp only
          rw [hr.2.2]
          refine (bareNL_shift c rest p2 p1 _ ?_).symm
          intro hcon
          have hnl := hcon.1
          have hg := hcon.2
          rw [List.get?_cons_zero] at hnl
          injection hnl with hc'
          apply hg
          rw [ctxAt_zero_two, ctxAt_zero_one]
          by_contra hng
          exact hB ⟨hc', hng⟩

/-- Transport of the bare-newline characterisation to the consumed line. -/
theorem bareNL_top (resp : List Char) (n : Nat) (hn : n ≤ resp.length) :
    (∃ p, p < n ∧ resp.get? p = some '\n' ∧
        ¬(ctxAt none none resp p 2 = some '[' ∧ ctxAt none none resp p 1 = some '^'))
      ↔ lineHasBareNL (resp.take n) := by
  unfold lineHasBareNL
  constructor
  · rintro ⟨p, hp, hnl, hg⟩
    refine ⟨p, ?_, ?_⟩
    · rw [get?_take_lt resp n p hp]
      exact hnl
    · rintro ⟨h2, ha, hb⟩
      apply hg
      have e2 : ctxAt none none resp p 2 = resp.get? (p - 2) := by
        unfold ctxAt
        rw [if_pos h2]
      have e1 : ctxAt none none resp p 1 = resp.get? (p - 1) := by
        unfold ctxAt
        rw [if_pos (by omega : 1 ≤ p)]
      rw [e2, e1]
      constructor
      · rw [← get?_take_lt resp n (p - 2) (by omega)]
        exact ha
      · rw [← get?_take_lt resp n (p - 1) (by omega)]
        exact hb
  · rintro ⟨p, hnl, hg⟩
    have hp : p < n := by
      obtain ⟨hlt, _⟩ := List.get?_eq_some.mp hnl
      rw [List.length_take] at hlt
      omega
    refine ⟨p, hp, ?_, ?_⟩
    · rw [← get?_take_lt resp n p hp]
      exact hnl
    · rintro ⟨h2, h1⟩
      have hp2 : 2 ≤ p := by
        by_contra hlt2
        unfold ctxAt at h2
        rw [if_neg (by omega)] at h2
        by_cases hq : 2 = p + 1
        · rw [if_pos hq] at h2
          exact Option.noConfusion h2
        · rw [if_neg hq] at h2
          by_cases hq2 : 2 = p + 2
          · rw [if_pos hq2] at h2
            exact Option.noConfusion h2
          · rw [if_neg hq2] at h2
            exact Option.noConfusion h2
      apply hg
      refine ⟨hp2, ?_, ?_⟩
      · have e2 : ctxAt none none resp p 2 = resp.get? (p - 2) := by
          unfold ctxAt
          rw [if_pos hp2]
        rw [get?_take_lt resp n (p - 2) (by omega), ← e2]
        exact h2
      · have e1 : ctxAt none none resp p 1 = resp.get? (p - 1) := by
          unfold ctxAt
          rw [if_pos (by omega : 1 ≤ p)]
        rw [get?_take_lt resp n (p - 1) (by omega), ← e1]
        exact h1

/-- C2: the staged verification template is the line with every literal '%'
not followed by '%' or '*' replaced by "%*", with "%n" appended; the
`whole_line_wanted` flag is set exactly when the line contains a newline not
immediately preceded by the two characters "[^"; and when the flag is set,
an iteration on a byte other than a newline never consults the verification
primitive (verification is suppressed until a newline is received). -/
theorem pattern_rewrite_spec :
    (∀ resp : List Char,
        (prepLine resp).1 = specRewrite (resp.take (prepLine resp).2.1) ++ ['%', 'n']
        ∧ ((prepLine resp).2.2 = true ↔ lineHasBareNL (resp.take (prepLine resp).2.1)))
    ∧ (∀ (oobs : List OobEntry) (oracle oracle' : ScanOracle) (tmpl : List Char)
        (offset : Nat) (st : InnerSt) (c : Int) (rest : List Int),
        st.stream = c :: rest → ¬ c < 0 → toChar c ≠ '\n' →
        innerStep oobs oracle tmpl true offset st
          = innerStep oobs oracle' tmpl true offset st) := by
  constructor
  · intro resp
    have h := rewriteGo_spec resp none none
    constructor
    · show (rewriteGo resp none none).1 ++ ['%', 'n']
        = specRewrite (resp.take (rewriteGo resp none none).2.1) ++ ['%', 'n']
      rw [h.1]
    · show (rewriteGo resp none none).2.2 = true
        ↔ lineHasBareNL (resp.take (rewriteGo resp none none).2.1)
      rw [h.2.2]
      exact bareNL_top resp _ h.2.1
  · intro oobs oracle oracle' tmpl offset st c rest hs hc hnl
    simp only [innerStep, hs, if_neg hc]
    cases hf : findOob oobs
        ((if toChar c = '\n' ∧ st.inPrev = ':' then st.cand ++ ['x'] else st.cand)
          ++ [toChar c]) with
    | some e => rfl
    | none =>
      dsimp only
      rw [if_pos (show True ∧ toChar c ≠ '\n' from ⟨trivial, hnl⟩),
        if_pos (show True ∧ toChar c ≠ '\n' from ⟨trivial, hnl⟩)]

/-- Witness for C2: the line "a\n" (which wants the whole line) and a
concrete suppressed iteration whose outcome is the same under two different
verification oracles. -/
theorem pattern_rewrite_spec_witness :
    ((prepLine ['a', '\n']).1
        = specRewrite (['a', '\n'].take (prepLine ['a', '\n']).2.1) ++ ['%', 'n']
      ∧ ((prepLine ['a', '\n']).2.2 = true
          ↔ lineHasBareNL (['a', '\n'].take (prepLine ['a', '\n']).2.1)))
    ∧ innerStep [] oracleLen ['%', 'n'] true 3 ⟨[65], [], [], nulChar⟩
        = innerStep [] oracleNone ['%', 'n'] true 3 ⟨[65], [], [], nulChar⟩ :=
  ⟨pattern_rewrite_spec.1 ['a', '\n'],
   pattern_rewrite_spec.2 [] oracleLen oracleNone ['%', 'n'] 3
     ⟨[65], [], [], nulChar⟩ 65 [] rfl (by norm_num) (by decide)⟩

/-- The staging loop on a line of literal 'x' characters copies it verbatim
and wants no whole line. -/
theorem rewriteGo_replicate_x : ∀ (n : Nat) (p2 p1 : Option Char),
    rewriteGo (List.replicate n 'x') p2 p1 = (List.replicate n 'x', n, false) := by
  intro n
  induction n with
  | zero => intro p2 p1; rfl
  | succ m ih =>
    intro p2 p1
    rw [List.replicate_succ]
    simp only [rewriteGo]
    rw [if_neg (fun hcon => absurd hcon.1 (by decide)),
      if_neg (fun hcon => absurd hcon.1 (by decide))]
    rw [ih]

/-- Staging a nonempty line from the outer loop. -/
theorem runV_lines_cons (oobs : List OobEntry) (oracle : ScanOracle)
    (fuel : Nat) (ab : Bool) (resp : List Char)
    (stream : List Int) (inPrev : Char) (tr : List Event) (hne : resp ≠ []) :
    runV oobs oracle (fuel + 1) (.lines ab resp stream inPrev) tr
      = runV oobs oracle fuel
          (.inLine ab resp (prepLine resp).1 (prepLine resp).2.1 (prepLine resp).2.2
            ((prepLine resp).1.length + 1) ⟨stream, [], [], inPrev⟩) tr := by
  cases resp with
  | nil => exact absurd rfl hne
  | cons c t => simp only [runV]

/-- C5, evaluating the code at a concrete receive: with a pattern of 2037
literal characters (candidate region offset 2040) and the transport input
"aaaaa:" followed by a newline, the newline triggers the dummy-byte
injection while the candidate already holds 6 bytes, and the NUL sentinel is
stored at buffer index 2048 = AT_BUFFER_SIZE — one byte past the end of the
fixed buffer, because the capacity check `j + 1 >= AT_BUFFER_SIZE - offset`
performed at the end of the previous iteration does not account for the two
extra stores of a filler iteration. -/
theorem capacity_overflow_write :
    Event.bufWrite AT_BUFFER_SIZE
      ∈ (ATCmdParser_vrecv [] oracleNone c5resp c5stream 20).trace := by
  have hA := rewriteGo_replicate_x 2037 none none
  have hprep : prepLine c5resp = (List.replicate 2037 'x' ++ ['%', 'n'], 2037, false) := by
    unfold c5resp
    simp only [prepLine]
    rw [hA]
  have hprep1 : (prepLine c5resp).1 = List.replicate 2037 'x' ++ ['%', 'n'] := by
    rw [hprep]
  have hprep2 : (prepLine c5resp).2.1 = 2037 := by rw [hprep]
  have hprep3 : (prepLine c5resp).2.2 = false := by rw [hprep]
  have hoff : (prepLine c5resp).1.length + 1 = 2040 := by
    rw [hprep1]
    simp only [List.length_append, List.length_replicate, List.length_cons,
      List.length_nil]
  have hne : c5resp ≠ [] := by
    intro h
    have h2 := congrArg List.length h
    rw [List.length_nil] at h2
    unfold c5resp at h2
    rw [List.length_replicate] at h2
    exact absurd h2 (by decide)
  have h20 : (20 : Nat) = 19 + 1 := rfl
  unfold ATCmdParser_vrecv
  rw [h20, runV_lines_cons [] oracleNone 19 false c5resp c5stream nulChar [] hne]
  rw [hoff, hprep1, hprep2, hprep3]
  decide

end ATCP
